import Mathlib

/-!
Shallow embedding of `homework1/graph_search.py` (classes `GraphSearch`,
`BreadthFirstSearch`, `DepthFirstSearch`) together with proofs about the
behaviour of `find_paths`.

Node identifiers are modelled as `Nat`.  A graph is its neighbour
enumeration (`networkx.Graph.neighbors`): a total function from a node to
the list of its neighbours, in adjacency-insertion order.  Python sets and
dicts are modelled by lists and association lists; `dict` iteration order
(insertion order) is preserved by appending new keys at the end.

Partial behaviour (the generator-driven expansion loop and the recursive
path reconstruction) is modelled with an explicit fuel parameter; `none`
means the computation did not finish within the given fuel.  A raised
Python exception is modelled with `Except`.

Two ghost fields (`expandLog`, `discLog`) record the sequence of
`__expand_node` invocations and of discovery events (a node being handed to
`_add_to_frontier` together with its discovering parent).  They influence
nothing and are only read by theorems.
-/

namespace GraphSearch

/-- The one Python exception the embedded code can raise. -/
inductive PyErr where
  | attributeError
deriving DecidableEq, Repr

/-- A graph, given by neighbour enumeration (`networkx` adjacency order). -/
abbrev Graph := Nat → List Nat

/-- The two concrete frontier strategies of the source file. -/
inductive Strategy where
  | bfs
  | dfs
deriving DecidableEq, Repr

/-- `_add_to_frontier`:  `BreadthFirstSearch` does `deque.appendleft`
(cons on the left), `DepthFirstSearch` does `list.append` (snoc on the
right). -/
def addToFrontier : Strategy → List Nat → Nat → List Nat
  | Strategy.bfs, q, n => n :: q
  | Strategy.dfs, s, n => s ++ [n]

/-- `_expandable_nodes` draws the next node: both strategies take the
RIGHT end of their collection (`deque.pop` for BFS, `list.pop` for DFS),
and stop when the collection is empty.  Returns the remaining frontier
and the drawn node. -/
def popFrontier : List Nat → Option (List Nat × Nat)
  | [] => none
  | x :: xs =>
    match popFrontier xs with
    | none => some ([], x)
    | some (r, n) => some (x :: r, n)

/-- Search-session state of one `GraphSearch` instance.
`expanded` models `self.__expanded` (a set), `anc` models
`self.__node_ancestors` (a dict from node to its set of parents, kept in
insertion order), `frontier` the strategy's queue/stack.
`expandLog` and `discLog` are ghost logs (see module docstring). -/
structure SState where
  expanded : List Nat
  anc : List (Nat × List Nat)
  frontier : List Nat
  expandLog : List Nat
  discLog : List (Nat × Nat)
deriving DecidableEq, Repr

/-- `dict.get` on the ancestor map. -/
def lookupA : List (Nat × List Nat) → Nat → Option (List Nat)
  | [], _ => none
  | (k, v) :: rest, c => if k = c then some v else lookupA rest c

/-- The keys of the ancestor map, in insertion order. -/
def ancKeys (anc : List (Nat × List Nat)) : List Nat :=
  anc.map Prod.fst

/-- The keys recorded strictly before `c`'s entry (all keys when `c` is
not a key). -/
def keysBefore : List (Nat × List Nat) → Nat → List Nat
  | [], _ => []
  | (k, _) :: rest, c => if k = c then [] else k :: keysBefore rest c

/-- `set.add` for the expanded set. -/
def setInsert (s : List Nat) (x : Nat) : List Nat :=
  if x ∈ s then s else s ++ [x]

/-- `GraphSearch.__update_ancestor`.  The Python body is

    if ancestors := self.__node_ancestors.get(child) is None:
        ancestors = set()
        self.__node_ancestors[child] = ancestors
    ancestors.add(parent)

Because `:=` binds looser than `is`, the variable `ancestors` receives the
Boolean `get(child) is None`.  When the child has no entry yet, the branch
rebinds `ancestors` to a fresh set, stores it, and `.add(parent)` fills
it, so the child ends up with exactly `{parent}`.  When the child already
has an entry, `ancestors` is `False` and `False.add(parent)` raises
`AttributeError`. -/
def updateAncestor (anc : List (Nat × List Nat)) (parent child : Nat) :
    Except PyErr (List (Nat × List Nat)) :=
  if (lookupA anc child).isNone then
    Except.ok (anc ++ [(child, [parent])])
  else
    Except.error PyErr.attributeError

/-- The neighbour loop of `GraphSearch.__expand_node`: for each neighbour
not yet expanded, add it to the frontier, then record the ancestor link.
The returned flag is `some e` when `__update_ancestor` raised; state
mutations made before the raise are kept (they are what Python performed
before the exception propagated). -/
def processNeighbors (strat : Strategy) (node : Nat) :
    SState → List Nat → SState × Option PyErr
  | st, [] => (st, none)
  | st, nb :: rest =>
    if nb ∈ st.expanded then
      processNeighbors strat node st rest
    else
      let st1 : SState :=
        { st with
          frontier := addToFrontier strat st.frontier nb,
          discLog := st.discLog ++ [(node, nb)] }
      match updateAncestor st1.anc node nb with
      | Except.error e => (st1, some e)
      | Except.ok anc2 => processNeighbors strat node { st1 with anc := anc2 } rest

/-- `GraphSearch.__expand_node`: log the invocation (ghost), process all
neighbours, then add the node to the expanded set. -/
def expandNode (strat : Strategy) (g : Graph) (st : SState) (node : Nat) :
    SState × Option PyErr :=
  let st0 : SState := { st with expandLog := st.expandLog ++ [node] }
  match processNeighbors strat node st0 (g node) with
  | (st1, some e) => (st1, some e)
  | (st1, none) => ({ st1 with expanded := setInsert st1.expanded node }, none)

/-- The expansion loop of `GraphSearch.find_paths`:

    for node in self._expandable_nodes():
        self.__expand_node(node)
        if end in self.__expanded:
            break

driven by the generator `while len(queue) > 0: yield queue.pop()`.
`none` means the fuel ran out before the loop finished; `some (st, err)`
is the final state, with `err = some e` when `__expand_node` raised. -/
def searchLoop (strat : Strategy) (g : Graph) (endNode : Nat) :
    Nat → SState → Option (SState × Option PyErr)
  | 0, _ => none
  | fuel + 1, st =>
    match popFrontier st.frontier with
    | none => some (st, none)
    | some (rest, node) =>
      match expandNode strat g { st with frontier := rest } node with
      | (st1, some e) => some (st1, some e)
      | (st1, none) =>
        if endNode ∈ st1.expanded then some (st1, none)
        else searchLoop strat g endNode fuel st1

/-- The state of a freshly constructed search instance after the seeding
call `self._add_to_frontier(start)`. -/
def initState (strat : Strategy) (start : Nat) : SState :=
  { expanded := [], anc := [], frontier := addToFrontier strat [] start,
    expandLog := [], discLog := [] }

/-- Append `e` to every partial path (`for path in partial_paths:
path.append(_end)`). -/
def extendAll (e : Nat) (pp : List (List Nat)) : List (List Nat) :=
  pp.map (fun p => p ++ [e])

/-- The `for parent in parents` loop of `_build_paths`: for each parent,
recursively build its paths, extend each by `e`, and concatenate the
results in parent order.  `build` is the recursive call; `none`
propagates fuel exhaustion. -/
def collectPaths (build : Nat → Option (List (List Nat))) (e : Nat) :
    List Nat → Option (List (List Nat))
  | [] => some []
  | p :: ps =>
    match build p, collectPaths build e ps with
    | some pp, some rest => some (extendAll e pp ++ rest)
    | _, _ => none

/-- The naive, unmemoized recursion the specification describes: base
case `[[start]]` when the node has no recorded ancestors; otherwise the
union over ancestors of the parent's paths each extended by the node. -/
def buildPathsNaive (anc : List (Nat × List Nat)) (start : Nat) :
    Nat → Nat → Option (List (List Nat))
  | 0, _ => none
  | fuel + 1, e =>
    match lookupA anc e with
    | none => some [[start]]
    | some parents => collectPaths (buildPathsNaive anc start fuel) e parents

/-- An `lru_cache` table, keyed on the `(_start, _end)` argument pair. -/
abbrev BuildCache := List ((Nat × Nat) × List (List Nat))

/-- Cache lookup for the memoized inner function. -/
def cacheLookup : BuildCache → Nat × Nat → Option (List (List Nat))
  | [], _ => none
  | (k, v) :: rest, key => if k = key then some v else cacheLookup rest key

/-- The body of the `lru_cache`-decorated inner `_build_paths`, as a
function of the cache it closes over: on a hit return the cached value,
on a miss compute the result (recursing through `recurse`, which models
the call `self.__build_paths(_start, parent)` to the OUTER function) and
store it. -/
def innerBuild (recurse : Nat → Option (List (List Nat)))
    (anc : List (Nat × List Nat)) (start : Nat) (cache : BuildCache)
    (e : Nat) : Option (List (List Nat) × BuildCache) :=
  match cacheLookup cache (start, e) with
  | some r => some (r, cache)
  | none =>
    match
      (match lookupA anc e with
       | none => some [[start]]
       | some parents => collectPaths recurse e parents) with
    | none => none
    | some r => some (r, ((start, e), r) :: cache)

/-- `GraphSearch.__build_paths`: construct a fresh inner `_build_paths`
with a fresh (empty) `lru_cache`, and call it once on `(start, e)`.  Each
recursive step of the inner function goes through `__build_paths` again,
so every recursion level gets its own empty cache. -/
def buildPathsMemo (fuel : Nat) (anc : List (Nat × List Nat))
    (start : Nat) (e : Nat) : Option (List (List Nat)) :=
  match fuel with
  | 0 => none
  | fuel + 1 =>
    match innerBuild (buildPathsMemo fuel anc start) anc start [] e with
    | none => none
    | some (r, _) => some r

/-- `GraphSearch.find_paths`: seed the frontier with `start`, run the
expansion loop, and reconstruct paths from the ancestor map.
`some (Except.error e)` models a raised exception, `none` means the fuel
was insufficient (non-termination of the Python original). -/
def findPaths (strat : Strategy) (g : Graph) (start endNode fuel : Nat) :
    Option (Except PyErr (List (List Nat))) :=
  match searchLoop strat g endNode fuel (initState strat start) with
  | none => none
  | some (_, some e) => some (Except.error e)
  | some (st, none) =>
    match buildPathsMemo fuel st.anc start endNode with
    | none => none
    | some paths => some (Except.ok paths)

/-- Reachability along the neighbour relation. -/
inductive Reach (g : Graph) (s : Nat) : Nat → Prop where
  | refl : Reach g s s
  | step {v u : Nat} : Reach g s v → u ∈ g v → Reach g s u

/-- A valid walk from `s` to `t`: starts at `s`, ends at `t`, successive
elements are neighbours, and no node repeats. -/
def ValidWalk (g : Graph) (s t : Nat) (path : List Nat) : Prop :=
  path.head? = some s ∧ path.getLast? = some t ∧
    List.Chain' (fun a b => b ∈ g a) path ∧ path.Nodup

/-- A graph with no self-loops. -/
def NoSelfLoops (g : Graph) : Prop :=
  ∀ v, v ∉ g v

/-- `find_paths` terminates on the given input (some fuel suffices). -/
def findPathsTerminates (strat : Strategy) (g : Graph) (s e : Nat) : Prop :=
  ∃ fuel, (findPaths strat g s e fuel).isSome

/-- `find_paths start start` terminates and returns exactly `[[start]]`. -/
def returnsSingleStart (strat : Strategy) (g : Graph) (s : Nat) : Prop :=
  ∃ fuel, findPaths strat g s s fuel = some (Except.ok [[s]])

/-- The spec scenario graph with edges (0,1), (1,2), (0,3), (3,2), with
`networkx` adjacency order for that edge-insertion order. -/
def gDiamond : Graph := fun v =>
  if v = 0 then [1, 3]
  else if v = 1 then [0, 2]
  else if v = 2 then [1, 3]
  else if v = 3 then [0, 2]
  else []

/-- The single-edge graph 0 – 1. -/
def gEdge : Graph := fun v =>
  if v = 0 then [1] else if v = 1 then [0] else []

/-- Two isolated nodes (0 and 5): no edges at all. -/
def gIso : Graph := fun _ => []

/-- A single node 0 carrying a self-loop. -/
def gLoop : Graph := fun v => if v = 0 then [0] else []

/-- Node 0 with a self-loop plus the edge 0 – 1 (self-loop inserted
first). -/
def gLoopEdge : Graph := fun v =>
  if v = 0 then [0, 1] else if v = 1 then [0] else []

/-- Fold `_add_to_frontier` over a batch of nodes in order. -/
def addAll (strat : Strategy) (fr : List Nat) (ns : List Nat) : List Nat :=
  ns.foldl (addToFrontier strat) fr

/-- The neighbours of `node` that are not in the expanded set `exp`, in
neighbour order: exactly the ones `__expand_node` hands to
`_add_to_frontier`. -/
def freshOnes (exp : List Nat) : List Nat → List Nat
  | [] => []
  | nb :: rest =>
    if nb ∈ exp then freshOnes exp rest else nb :: freshOnes exp rest

/-- Run invariant of the expansion loop, for any strategy and any graph,
holding between loop iterations of every error-free run prefix. -/
structure Inv (g : Graph) (start : Nat) (st : SState) : Prop where
  init_case : st.expanded = [] →
    st.anc = [] ∧ st.frontier = [start] ∧ st.discLog = []
  start_exp : st.expanded = [] ∨ start ∈ st.expanded
  frontier_mem : ∀ v ∈ st.frontier,
    v ∈ ancKeys st.anc ∨ (v = start ∧ st.expanded = [])
  expanded_mem : ∀ v ∈ st.expanded, v = start ∨ v ∈ ancKeys st.anc
  keys_mem : ∀ c ∈ ancKeys st.anc, c ∈ st.expanded ∨ c ∈ st.frontier
  keys_nodup : (ancKeys st.anc).Nodup
  anc_singleton : ∀ c ps, (c, ps) ∈ st.anc → ∃ p, ps = [p]
  anc_edge : ∀ c ps, (c, ps) ∈ st.anc → ∀ p ∈ ps, c ∈ g p
  anc_before : ∀ c ps, (c, ps) ∈ st.anc → ∀ p ∈ ps,
    p = start ∨ p ∈ keysBefore st.anc c
  start_key_self : ∀ ps, (start, ps) ∈ st.anc → ps = [start]
  closed_exp : ∀ v ∈ st.expanded, ∀ u ∈ g v,
    u ∈ st.expanded ∨ u ∈ st.frontier
  reach_keys : ∀ v ∈ ancKeys st.anc, Reach g start v
  reach_frontier : ∀ v ∈ st.frontier, Reach g start v
  reach_exp : ∀ v ∈ st.expanded, Reach g start v
  disc_keys : st.discLog.map Prod.snd = ancKeys st.anc
  exp_nodup : st.expanded.Nodup

/-- Strengthened invariant available when the graph has no self-loops. -/
structure InvW (g : Graph) (start : Nat) (st : SState) : Prop where
  base : Inv g start st
  fr_nodup : st.frontier.Nodup
  fr_disj : ∀ v ∈ st.frontier, v ∉ st.expanded
  log_nodup : st.expandLog.Nodup
  log_iff : ∀ v, v ∈ st.expandLog ↔ v ∈ st.expanded
  start_unkeyed : start ∉ ancKeys st.anc

/-- The final state of the error-free BFS run on `gEdge` from 0 to 1
(used to witness hypothesis-bearing theorems on concrete inputs). -/
def stEdge : SState :=
  { expanded := [0, 1], anc := [(1, [0])], frontier := [],
    expandLog := [0, 1], discLog := [(0, 1)] }

/-- The state of the BFS run on `gLoop` after its single loop iteration
(node 0 expanded; its self-loop made it its own recorded ancestor). -/
def stLoop : SState :=
  { expanded := [0], anc := [(0, [0])], frontier := [0],
    expandLog := [0], discLog := [(0, 0)] }

/-! ### The FIFO frontier of `BreadthFirstSearch` in isolation

Model for claim C8: an arbitrary interleaving of `_add_to_frontier`
calls with consumption of the `_expandable_nodes` generator, driven on
the raw deque operations of `BreadthFirstSearch`. -/

/-- One event of an interleaving: an `_add_to_frontier` call, or one
consumption step of the `_expandable_nodes` generator. -/
inductive QOp where
  | add (n : Nat)
  | next
deriving DecidableEq, Repr

/-- Run an interleaving on the BFS deque (`appendleft` to add,
`pop` from the right to consume).  When a consumption step finds the
deque empty the generator's `while` loop exits and the run stops.
Returns the final deque and the emitted nodes in order. -/
def bfsQueueRun : List Nat → List QOp → List Nat × List Nat
  | q, [] => (q, [])
  | q, QOp.add n :: ops => bfsQueueRun (addToFrontier Strategy.bfs q n) ops
  | q, QOp.next :: ops =>
    match popFrontier q with
    | none => (q, [])
    | some (r, n) =>
      let (q1, out) := bfsQueueRun r ops
      (q1, n :: out)

/-- The specification-side FIFO queue: pending nodes in discovery order,
`add` appends at the back, consumption takes the front, and the run
stops when the pending list is empty. -/
def fifoRun : List Nat → List QOp → List Nat × List Nat
  | pend, [] => (pend, [])
  | pend, QOp.add n :: ops => fifoRun (pend ++ [n]) ops
  | pend, QOp.next :: ops =>
    match pend with
    | [] => (pend, [])
    | n :: rest =>
      let (p1, out) := fifoRun rest ops
      (p1, n :: out)

/-! ## Basic lemmas about the helper functions -/

theorem addToFrontier_nil (strat : Strategy) (n : Nat) :
    addToFrontier strat [] n = [n] := by
  cases strat <;> rfl

theorem mem_addToFrontier {strat : Strategy} {fr : List Nat} {n v : Nat} :
    v ∈ addToFrontier strat fr n ↔ v ∈ fr ∨ v = n := by
  cases strat <;> simp [addToFrontier, or_comm]

theorem nodup_addToFrontier {strat : Strategy} {fr : List Nat} {n : Nat}
    (hfr : fr.Nodup) (hn : n ∉ fr) : (addToFrontier strat fr n).Nodup := by
  cases strat <;> simp [addToFrontier, List.nodup_append, hfr, hn]

theorem popFrontier_append (xs : List Nat) (n : Nat) :
    popFrontier (xs ++ [n]) = some (xs, n) := by
  induction xs with
  | nil => rfl
  | cons x xs ih => simp [popFrontier, ih]

theorem popFrontier_cons_isSome (x : Nat) (xs : List Nat) :
    (popFrontier (x :: xs)).isSome := by
  cases h : popFrontier xs <;> simp [popFrontier, h]

theorem popFrontier_eq_none {l : List Nat} :
    popFrontier l = none ↔ l = [] := by
  cases l with
  | nil => simp [popFrontier]
  | cons x xs =>
    have := popFrontier_cons_isSome x xs
    constructor
    · intro h; rw [h] at this; simp at this
    · intro h; simp at h

theorem popFrontier_eq_some {l r : List Nat} {n : Nat}
    (h : popFrontier l = some (r, n)) : l = r ++ [n] := by
  induction l generalizing r n with
  | nil => simp [popFrontier] at h
  | cons x xs ih =>
    rw [popFrontier] at h
    cases hx : popFrontier xs with
    | none =>
      rw [hx] at h
      simp at h
      obtain ⟨rfl, rfl⟩ := h
      have : xs = [] := popFrontier_eq_none.mp hx
      simp [this]
    | some p =>
      obtain ⟨r', n'⟩ := p
      rw [hx] at h
      simp at h
      obtain ⟨rfl, rfl⟩ := h
      simp [ih hx]

@[simp]
theorem ancKeys_nil : ancKeys [] = [] := rfl

@[simp]
theorem ancKeys_cons (k : Nat) (v : List Nat) (rest : List (Nat × List Nat)) :
    ancKeys ((k, v) :: rest) = k :: ancKeys rest := rfl

@[simp]
theorem ancKeys_append (a b : List (Nat × List Nat)) :
    ancKeys (a ++ b) = ancKeys a ++ ancKeys b := by
  simp [ancKeys]

theorem lookupA_eq_none {anc : List (Nat × List Nat)} {c : Nat} :
    lookupA anc c = none ↔ c ∉ ancKeys anc := by
  induction anc with
  | nil => simp [lookupA]
  | cons kv rest ih =>
    obtain ⟨k, v⟩ := kv
    by_cases hk : k = c
    · simp [lookupA, hk]
    · simp only [lookupA, if_neg hk, ih, ancKeys_cons, List.mem_cons]
      constructor
      · intro h hor
        rcases hor with h1 | h1
        · exact hk h1.symm
        · exact h h1
      · intro h h1
        exact h (Or.inr h1)

theorem lookupA_isNone_iff {anc : List (Nat × List Nat)} {c : Nat} :
    (lookupA anc c).isNone ↔ c ∉ ancKeys anc := by
  rw [Option.isNone_iff_eq_none, lookupA_eq_none]

theorem lookupA_mem {anc : List (Nat × List Nat)} {c : Nat} {ps : List Nat}
    (h : lookupA anc c = some ps) : (c, ps) ∈ anc := by
  induction anc with
  | nil => simp [lookupA] at h
  | cons kv rest ih =>
    obtain ⟨k, v⟩ := kv
    by_cases hk : k = c
    · subst hk
      simp [lookupA] at h
      simp [h]
    · rw [lookupA, if_neg hk] at h
      exact List.mem_cons_of_mem _ (ih h)

theorem mem_ancKeys_of_lookupA {anc : List (Nat × List Nat)} {c : Nat}
    {ps : List Nat} (h : lookupA anc c = some ps) : c ∈ ancKeys anc := by
  by_contra hc
  rw [← lookupA_eq_none] at hc
  rw [h] at hc
  simp at hc

theorem lookupA_of_mem {anc : List (Nat × List Nat)} {c : Nat} {ps : List Nat}
    (hnd : (ancKeys anc).Nodup) (h : (c, ps) ∈ anc) : lookupA anc c = some ps := by
  induction anc with
  | nil => simp at h
  | cons kv rest ih =>
    obtain ⟨k, v⟩ := kv
    simp at hnd
    rcases List.mem_cons.mp h with h1 | h1
    · obtain ⟨rfl, rfl⟩ := Prod.mk.injEq .. ▸ h1
      simp_all [lookupA]
    · have hk : k ≠ c := by
        rintro rfl
        exact hnd.1 (by simpa [ancKeys] using List.mem_map_of_mem Prod.fst h1)
      rw [lookupA, if_neg hk]
      exact ih hnd.2 h1

theorem keysBefore_sublist (anc : List (Nat × List Nat)) (c : Nat) :
    (keysBefore anc c).Sublist (ancKeys anc) := by
  induction anc with
  | nil => simp [keysBefore]
  | cons kv rest ih =>
    obtain ⟨k, v⟩ := kv
    by_cases hk : k = c
    · simp [keysBefore, hk]
    · rw [keysBefore, if_neg hk, ancKeys_cons]
      exact ih.cons₂ k

theorem mem_ancKeys_of_mem_keysBefore {anc : List (Nat × List Nat)} {c p : Nat}
    (h : p ∈ keysBefore anc c) : p ∈ ancKeys anc :=
  (keysBefore_sublist anc c).subset h

theorem not_mem_keysBefore_self (anc : List (Nat × List Nat)) (c : Nat) :
    c ∉ keysBefore anc c := by
  induction anc with
  | nil => simp [keysBefore]
  | cons kv rest ih =>
    obtain ⟨k, v⟩ := kv
    by_cases hk : k = c
    · simp [keysBefore, hk]
    · rw [keysBefore, if_neg hk]
      simp [ih]
      intro hc
      exact hk hc.symm

theorem keysBefore_trans {anc : List (Nat × List Nat)} {v p c : Nat}
    (hvp : v ∈ keysBefore anc p) (hpc : p ∈ keysBefore anc c) :
    v ∈ keysBefore anc c := by
  induction anc with
  | nil => simp [keysBefore] at hvp
  | cons kv rest ih =>
    obtain ⟨k, w⟩ := kv
    by_cases hkc : k = c
    · simp [keysBefore, hkc] at hpc
    · rw [keysBefore, if_neg hkc] at hpc ⊢
      by_cases hkp : k = p
      · simp [keysBefore, hkp] at hvp
      · rw [keysBefore, if_neg hkp] at hvp
        rcases List.mem_cons.mp hvp with h1 | h1
        · exact List.mem_cons.mpr (Or.inl h1)
        · rcases List.mem_cons.mp hpc with h2 | h2
          · exact absurd h2.symm hkp
          · exact List.mem_cons.mpr (Or.inr (ih h1 h2))

theorem keysBefore_append_of_mem {anc : List (Nat × List Nat)} {c : Nat}
    (anc2 : List (Nat × List Nat)) (h : c ∈ ancKeys anc) :
    keysBefore (anc ++ anc2) c = keysBefore anc c := by
  induction anc with
  | nil => simp at h
  | cons kv rest ih =>
    obtain ⟨k, v⟩ := kv
    by_cases hk : k = c
    · simp [keysBefore, hk]
    · rw [ancKeys_cons] at h
      rcases List.mem_cons.mp h with h1 | h1
      · exact absurd h1.symm hk
      · simp [keysBefore, hk, ih h1]

theorem keysBefore_append_of_not_mem {anc : List (Nat × List Nat)} {c : Nat}
    (anc2 : List (Nat × List Nat)) (h : c ∉ ancKeys anc) :
    keysBefore (anc ++ anc2) c = ancKeys anc ++ keysBefore anc2 c := by
  induction anc with
  | nil => simp [keysBefore]
  | cons kv rest ih =>
    obtain ⟨k, v⟩ := kv
    rw [ancKeys_cons] at h
    have hk : k ≠ c := by rintro rfl; exact h (List.mem_cons_self _ _)
    have hc : c ∉ ancKeys rest := fun hc => h (List.mem_cons_of_mem _ hc)
    simp [keysBefore, hk, ih hc]

@[simp]
theorem addAll_nil (strat : Strategy) (fr : List Nat) : addAll strat fr [] = fr := rfl

@[simp]
theorem addAll_cons (strat : Strategy) (fr : List Nat) (n : Nat) (ns : List Nat) :
    addAll strat fr (n :: ns) = addAll strat (addToFrontier strat fr n) ns := rfl

theorem mem_addAll {strat : Strategy} {v : Nat} :
    ∀ (ns fr : List Nat), v ∈ addAll strat fr ns ↔ v ∈ fr ∨ v ∈ ns := by
  intro ns
  induction ns with
  | nil => simp
  | cons n ns ih =>
    intro fr
    rw [addAll_cons, ih, mem_addToFrontier]
    simp [or_assoc]

theorem nodup_addAll {strat : Strategy} :
    ∀ (ns fr : List Nat), fr.Nodup → ns.Nodup → (∀ v ∈ ns, v ∉ fr) →
      (addAll strat fr ns).Nodup := by
  intro ns
  induction ns with
  | nil => intro fr h _ _; simpa using h
  | cons n ns ih =>
    intro fr hfr hns hd
    rw [addAll_cons]
    simp at hns
    refine ih _ (nodup_addToFrontier hfr (hd n (List.mem_cons_self _ _))) hns.2 ?_
    intro v hv hvmem
    rcases mem_addToFrontier.mp hvmem with h1 | rfl
    · exact hd v (List.mem_cons_of_mem _ hv) h1
    · exact hns.1 hv

theorem mem_freshOnes {exp : List Nat} {v : Nat} :
    ∀ L : List Nat, v ∈ freshOnes exp L ↔ v ∈ L ∧ v ∉ exp := by
  intro L
  induction L with
  | nil => simp [freshOnes]
  | cons nb rest ih =>
    by_cases hnb : nb ∈ exp
    · rw [freshOnes, if_pos hnb, ih]
      simp only [List.mem_cons]
      constructor
      · rintro ⟨h1, h2⟩; exact ⟨Or.inr h1, h2⟩
      · rintro ⟨h1 | h1, h2⟩
        · subst h1; exact absurd hnb h2
        · exact ⟨h1, h2⟩
    · rw [freshOnes, if_neg hnb]
      simp only [List.mem_cons, ih]
      constructor
      · rintro (rfl | ⟨h1, h2⟩)
        · exact ⟨Or.inl rfl, hnb⟩
        · exact ⟨Or.inr h1, h2⟩
      · rintro ⟨rfl | h1, h2⟩
        · exact Or.inl rfl
        · exact Or.inr ⟨h1, h2⟩

/-! ## Characterisation of the neighbour-processing loop -/

theorem processNeighbors_ok (strat : Strategy) (node : Nat) :
    ∀ (L : List Nat) (m m' : SState),
      processNeighbors strat node m L = (m', none) →
      m'.expanded = m.expanded ∧ m'.expandLog = m.expandLog ∧
      m'.anc = m.anc ++ (freshOnes m.expanded L).map (fun nb => (nb, [node])) ∧
      m'.frontier = addAll strat m.frontier (freshOnes m.expanded L) ∧
      m'.discLog = m.discLog ++ (freshOnes m.expanded L).map (fun nb => (node, nb)) ∧
      (freshOnes m.expanded L).Nodup ∧
      (∀ nb ∈ freshOnes m.expanded L, nb ∉ ancKeys m.anc) := by
  intro L
  induction L with
  | nil =>
    intro m m' h
    rw [processNeighbors] at h
    obtain ⟨rfl, -⟩ := Prod.mk.injEq .. ▸ h
    simp [freshOnes]
  | cons nb rest ih =>
    intro m m' h
    by_cases hnb : nb ∈ m.expanded
    · rw [processNeighbors, if_pos hnb] at h
      have hspec := ih m m' h
      rw [freshOnes, if_pos hnb]
      exact hspec
    · rw [processNeighbors, if_neg hnb] at h
      by_cases hk : (lookupA m.anc nb).isNone
      · simp only [updateAncestor, if_pos hk] at h
        have hspec := ih _ m' h
        simp only at hspec
        obtain ⟨h1, h2, h3, h4, h5, h6, h7⟩ := hspec
        have hfresh : freshOnes m.expanded (nb :: rest) = nb :: freshOnes m.expanded rest := by
          rw [freshOnes, if_neg hnb]
        have hnbkeys : nb ∉ ancKeys m.anc := lookupA_isNone_iff.mp hk
        refine ⟨h1, h2, ?_, ?_, ?_, ?_, ?_⟩
        · rw [h3, hfresh, List.map_cons, List.append_assoc]
          rfl
        · rw [h4, hfresh, addAll_cons]
        · rw [h5, hfresh, List.map_cons, List.append_assoc]
          rfl
        · rw [hfresh]
          refine List.nodup_cons.mpr ⟨?_, h6⟩
          intro hmem
          have := h7 nb hmem
          simp at this
        · rw [hfresh]
          intro x hx
          rcases List.mem_cons.mp hx with rfl | hx'
          · exact hnbkeys
          · intro hxk
            exact h7 x hx' (by simp [hxk])
      · simp only [updateAncestor, if_neg hk] at h
        exact absurd (Prod.mk.injEq .. ▸ h).2 (by simp)

theorem processNeighbors_err (strat : Strategy) (node : Nat) :
    ∀ (L : List Nat) (m m' : SState) (e : PyErr),
      processNeighbors strat node m L = (m', some e) →
      ancKeys m.anc = m.discLog.map Prod.snd → (ancKeys m.anc).Nodup →
      ¬ (m'.discLog.map Prod.snd).Nodup ∧ m'.expandLog = m.expandLog ∧
        m'.expanded = m.expanded := by
  intro L
  induction L with
  | nil =>
    intro m m' e h _ _
    rw [processNeighbors] at h
    exact absurd (Prod.mk.injEq .. ▸ h).2 (by simp)
  | cons nb rest ih =>
    intro m m' e h hkeys hnd
    by_cases hnb : nb ∈ m.expanded
    · rw [processNeighbors, if_pos hnb] at h
      exact ih m m' e h hkeys hnd
    · rw [processNeighbors, if_neg hnb] at h
      by_cases hk : (lookupA m.anc nb).isNone
      · simp only [updateAncestor, if_pos hk] at h
        have hnbkeys : nb ∉ ancKeys m.anc := lookupA_isNone_iff.mp hk
        have hrec := ih _ m' e h (by simp [hkeys])
          (by simp [List.nodup_append, hnd, hnbkeys])
        obtain ⟨h1, h2, h3⟩ := hrec
        exact ⟨h1, by simpa using h2, by simpa using h3⟩
      · simp only [updateAncestor, if_neg hk] at h
        obtain ⟨rfl, -⟩ := Prod.mk.injEq .. ▸ h
        have hnbkeys : nb ∈ ancKeys m.anc := by
          by_contra hc
          exact hk (lookupA_isNone_iff.mpr hc)
        refine ⟨?_, rfl, rfl⟩
        simp only [List.map_append, List.map_cons, List.map_nil]
        rw [List.nodup_append]
        push_neg
        intro h1 h2
        exact fun hdisj =>
          hdisj (show nb ∈ m.discLog.map Prod.snd by rw [← hkeys]; exact hnbkeys)
            (by simp)

theorem expandNode_ok {strat : Strategy} {g : Graph} {st : SState} {node : Nat}
    {st' : SState} (h : expandNode strat g st node = (st', none)) :
    st'.expanded = setInsert st.expanded node ∧
    st'.expandLog = st.expandLog ++ [node] ∧
    st'.anc = st.anc ++ (freshOnes st.expanded (g node)).map (fun nb => (nb, [node])) ∧
    st'.frontier = addAll strat st.frontier (freshOnes st.expanded (g node)) ∧
    st'.discLog = st.discLog ++ (freshOnes st.expanded (g node)).map (fun nb => (node, nb)) ∧
    (freshOnes st.expanded (g node)).Nodup ∧
    (∀ nb ∈ freshOnes st.expanded (g node), nb ∉ ancKeys st.anc) := by
  rw [expandNode] at h
  cases hp : processNeighbors strat node
      { st with expandLog := st.expandLog ++ [node] } (g node) with
  | mk st1 err =>
    rw [hp] at h
    cases err with
    | some e => exact absurd (Prod.mk.injEq .. ▸ h).2 (by simp)
    | none =>
      have hspec := processNeighbors_ok strat node (g node) _ st1 hp
      simp only at hspec
      obtain ⟨h1, h2, h3, h4, h5, h6, h7⟩ := hspec
      obtain ⟨rfl, -⟩ := Prod.mk.injEq .. ▸ h
      exact ⟨by simp [h1], by simp [h2], by simp [h3], by simp [h4],
        by simp [h5], h6, h7⟩

theorem expandNode_err {strat : Strategy} {g : Graph} {st : SState} {node : Nat}
    {st' : SState} {e : PyErr} (h : expandNode strat g st node = (st', some e))
    (hkeys : ancKeys st.anc = st.discLog.map Prod.snd)
    (hnd : (ancKeys st.anc).Nodup) :
    ¬ (st'.discLog.map Prod.snd).Nodup ∧
      st'.expandLog = st.expandLog ++ [node] ∧ st'.expanded = st.expanded := by
  rw [expandNode] at h
  cases hp : processNeighbors strat node
      { st with expandLog := st.expandLog ++ [node] } (g node) with
  | mk st1 err =>
    rw [hp] at h
    cases err with
    | none => exact absurd (Prod.mk.injEq .. ▸ h).2 (by simp)
    | some e' =>
      obtain ⟨rfl, he⟩ := Prod.mk.injEq .. ▸ h
      have hspec := processNeighbors_err strat node (g node) _ st1 e' hp
        (by simpa using hkeys) (by simpa using hnd)
      obtain ⟨h1, h2, h3⟩ := hspec
      exact ⟨h1, by simpa using h2, by simpa using h3⟩

theorem mem_setInsert {s : List Nat} {x v : Nat} :
    v ∈ setInsert s x ↔ v ∈ s ∨ v = x := by
  unfold setInsert
  by_cases h : x ∈ s
  · simp only [if_pos h]
    constructor
    · exact Or.inl
    · rintro (hv | rfl)
      · exact hv
      · exact h
  · simp [if_neg h]

theorem nodup_setInsert {s : List Nat} {x : Nat} (h : s.Nodup) :
    (setInsert s x).Nodup := by
  unfold setInsert
  by_cases hx : x ∈ s
  · simpa [if_pos hx]
  · simp [if_neg hx, List.nodup_append, h, hx]

theorem self_mem_setInsert (s : List Nat) (x : Nat) : x ∈ setInsert s x :=
  mem_setInsert.mpr (Or.inr rfl)

theorem ancKeys_map_pair (L : List Nat) (node : Nat) :
    ancKeys (L.map (fun nb => (nb, [node]))) = L := by
  induction L with
  | nil => rfl
  | cons x xs ih => simpa [ancKeys] using congrArg (List.cons x) ih

theorem snd_map_pair (L : List Nat) (node : Nat) :
    (L.map (fun nb => (node, nb))).map Prod.snd = L := by
  simp [List.map_map, Function.comp]

theorem key_mem_of_entry {anc : List (Nat × List Nat)} {c : Nat}
    {ps : List Nat} (h : (c, ps) ∈ anc) : c ∈ ancKeys anc := by
  simpa [ancKeys] using List.mem_map_of_mem Prod.fst h

/-! ## Preservation of the run invariant by one loop iteration -/

theorem inv_step {strat : Strategy} {g : Graph} {start : Nat} {st : SState}
    {rest : List Nat} {node : Nat} {st' : SState}
    (hInv : Inv g start st)
    (hpop : popFrontier st.frontier = some (rest, node))
    (hexp : expandNode strat g { st with frontier := rest } node = (st', none)) :
    Inv g start st' := by
  have hfr : st.frontier = rest ++ [node] := popFrontier_eq_some hpop
  have hspec := expandNode_ok hexp
  simp only at hspec
  obtain ⟨hE, hL, hA, hF, hD, hFnd, hFkeys⟩ := hspec
  set F := freshOnes st.expanded (g node) with hFdef
  have hFmem : ∀ nb ∈ F, nb ∈ g node ∧ nb ∉ st.expanded := by
    intro nb hnb
    exact (mem_freshOnes (g node)).mp hnb
  have hnodeF : node ∈ st.frontier := by rw [hfr]; simp
  have hkeys' : ancKeys st'.anc = ancKeys st.anc ++ F := by
    rw [hA, ancKeys_append, ancKeys_map_pair]
  have hcase :
      (st.expanded = [] ∧ rest = [] ∧ node = start ∧ st.anc = [] ∧
        st.discLog = []) ∨
      (start ∈ st.expanded ∧ node ∈ ancKeys st.anc) := by
    rcases hInv.start_exp with hemp | hst
    · obtain ⟨ha, hf, hd⟩ := hInv.init_case hemp
      rw [hf] at hpop
      have : popFrontier [start] = some ([], start) := rfl
      rw [this] at hpop
      simp at hpop
      exact Or.inl ⟨hemp, hpop.1, hpop.2.symm, ha, hd⟩
    · rcases hInv.frontier_mem node hnodeF with hk | ⟨rfl, hemp⟩
      · exact Or.inr ⟨hst, hk⟩
      · rw [hemp] at hst
        simp at hst
  have hexp_mem : ∀ v, v ∈ st'.expanded ↔ v ∈ st.expanded ∨ v = node := by
    intro v
    rw [hE]
    exact mem_setInsert
  have hfr_mem : ∀ v, v ∈ st'.frontier ↔ v ∈ rest ∨ v ∈ F := by
    intro v
    rw [hF]
    exact mem_addAll F rest
  have hreach_node : Reach g start node := hInv.reach_frontier node hnodeF
  constructor
  · -- init_case
    intro h
    exfalso
    have : node ∈ st'.expanded := (hexp_mem node).mpr (Or.inr rfl)
    rw [h] at this
    simp at this
  · -- start_exp
    refine Or.inr ?_
    rcases hcase with ⟨-, -, hns, -, -⟩ | ⟨hst, -⟩
    · exact (hexp_mem start).mpr (Or.inr hns.symm)
    · exact (hexp_mem start).mpr (Or.inl hst)
  · -- frontier_mem
    intro v hv
    rcases (hfr_mem v).mp hv with hv1 | hv1
    · have hvfr : v ∈ st.frontier := by rw [hfr]; exact List.mem_append_left _ hv1
      rcases hInv.frontier_mem v hvfr with hk | ⟨rfl, hemp⟩
      · exact Or.inl (by rw [hkeys']; exact List.mem_append_left _ hk)
      · rcases hcase with ⟨-, hrest, -, -, -⟩ | ⟨hst, -⟩
        · rw [hrest] at hv1; simp at hv1
        · rw [hemp] at hst; simp at hst
    · exact Or.inl (by rw [hkeys']; exact List.mem_append_right _ hv1)
  · -- expanded_mem
    intro v hv
    rcases (hexp_mem v).mp hv with hv1 | rfl
    · rcases hInv.expanded_mem v hv1 with h1 | h1
      · exact Or.inl h1
      · exact Or.inr (by rw [hkeys']; exact List.mem_append_left _ h1)
    · rcases hcase with ⟨-, -, hns, -, -⟩ | ⟨-, hk⟩
      · exact Or.inl hns
      · exact Or.inr (by rw [hkeys']; exact List.mem_append_left _ hk)
  · -- keys_mem
    intro c hc
    rw [hkeys'] at hc
    rcases List.mem_append.mp hc with hc1 | hc1
    · rcases hInv.keys_mem c hc1 with h1 | h1
      · exact Or.inl ((hexp_mem c).mpr (Or.inl h1))
      · rw [hfr] at h1
        rcases List.mem_append.mp h1 with h2 | h2
        · exact Or.inr ((hfr_mem c).mpr (Or.inl h2))
        · simp at h2
          exact Or.inl ((hexp_mem c).mpr (Or.inr h2))
    · exact Or.inr ((hfr_mem c).mpr (Or.inr hc1))
  · -- keys_nodup
    rw [hkeys']
    rw [List.nodup_append]
    exact ⟨hInv.keys_nodup, hFnd, fun a ha hb => hFkeys a hb ha⟩
  · -- anc_singleton
    intro c ps hmem
    rw [hA] at hmem
    rcases List.mem_append.mp hmem with h1 | h1
    · exact hInv.anc_singleton c ps h1
    · obtain ⟨nb, -, heq⟩ := List.mem_map.mp h1
      obtain ⟨-, rfl⟩ := Prod.mk.injEq .. ▸ heq
      exact ⟨node, rfl⟩
  · -- anc_edge
    intro c ps hmem p hp
    rw [hA] at hmem
    rcases List.mem_append.mp hmem with h1 | h1
    · exact hInv.anc_edge c ps h1 p hp
    · obtain ⟨nb, hnb, heq⟩ := List.mem_map.mp h1
      obtain ⟨h2, h3⟩ := Prod.mk.injEq .. ▸ heq
      subst h2
      rw [← h3] at hp
      simp at hp
      subst hp
      exact (hFmem nb hnb).1
  · -- anc_before
    intro c ps hmem p hp
    rw [hA] at hmem
    rcases List.mem_append.mp hmem with h1 | h1
    · have hc : c ∈ ancKeys st.anc := key_mem_of_entry h1
      rcases hInv.anc_before c ps h1 p hp with h2 | h2
      · exact Or.inl h2
      · refine Or.inr ?_
        rw [hA, keysBefore_append_of_mem _ hc]
        exact h2
    · obtain ⟨nb, hnb, heq⟩ := List.mem_map.mp h1
      obtain ⟨h2, h3⟩ := Prod.mk.injEq .. ▸ heq
      subst h2
      rw [← h3] at hp
      simp at hp
      subst hp
      rcases hcase with ⟨-, -, hns, -, -⟩ | ⟨-, hk⟩
      · exact Or.inl hns
      · refine Or.inr ?_
        rw [hA, keysBefore_append_of_not_mem _ (hFkeys nb hnb)]
        exact List.mem_append_left _ hk
  · -- start_key_self
    intro ps hmem
    rw [hA] at hmem
    rcases List.mem_append.mp hmem with h1 | h1
    · exact hInv.start_key_self ps h1
    · obtain ⟨nb, hnb, heq⟩ := List.mem_map.mp h1
      obtain ⟨h2, h3⟩ := Prod.mk.injEq .. ▸ heq
      rcases hcase with ⟨hemp, -, hns, -, -⟩ | ⟨hst, -⟩
      · rw [← h3, hns]
      · exfalso
        have := (hFmem nb hnb).2
        rw [h2] at this
        exact this hst
  · -- closed_exp
    intro v hv u hu
    rcases (hexp_mem v).mp hv with hv1 | rfl
    · rcases hInv.closed_exp v hv1 u hu with h1 | h1
      · exact Or.inl ((hexp_mem u).mpr (Or.inl h1))
      · rw [hfr] at h1
        rcases List.mem_append.mp h1 with h2 | h2
        · exact Or.inr ((hfr_mem u).mpr (Or.inl h2))
        · simp at h2
          exact Or.inl ((hexp_mem u).mpr (Or.inr h2))
    · by_cases hu2 : u ∈ st.expanded
      · exact Or.inl ((hexp_mem u).mpr (Or.inl hu2))
      · refine Or.inr ((hfr_mem u).mpr (Or.inr ?_))
        exact (mem_freshOnes (g v)).mpr ⟨hu, hu2⟩
  · -- reach_keys
    intro v hv
    rw [hkeys'] at hv
    rcases List.mem_append.mp hv with h1 | h1
    · exact hInv.reach_keys v h1
    · exact Reach.step hreach_node (hFmem v h1).1
  · -- reach_frontier
    intro v hv
    rcases (hfr_mem v).mp hv with h1 | h1
    · exact hInv.reach_frontier v (by rw [hfr]; exact List.mem_append_left _ h1)
    · exact Reach.step hreach_node (hFmem v h1).1
  · -- reach_exp
    intro v hv
    rcases (hexp_mem v).mp hv with h1 | rfl
    · exact hInv.reach_exp v h1
    · exact hreach_node
  · -- disc_keys
    rw [hD, hkeys', List.map_append, snd_map_pair, hInv.disc_keys]
  · -- exp_nodup
    rw [hE]
    exact nodup_setInsert hInv.exp_nodup

theorem inv_init (strat : Strategy) (g : Graph) (start : Nat) :
    Inv g start (initState strat start) := by
  have hfr : (initState strat start).frontier = [start] := by
    simp [initState, addToFrontier_nil]
  constructor
  · intro _
    exact ⟨rfl, hfr, rfl⟩
  · exact Or.inl rfl
  · intro v hv
    rw [hfr] at hv
    simp at hv
    exact Or.inr ⟨hv, rfl⟩
  · intro v hv
    simp [initState] at hv
  · intro c hc
    simp [initState, ancKeys] at hc
  · simp [initState, ancKeys]
  · intro c ps h
    simp [initState] at h
  · intro c ps h
    simp [initState] at h
  · intro c ps h
    simp [initState] at h
  · intro ps h
    simp [initState] at h
  · intro v hv
    simp [initState] at hv
  · intro v hv
    simp [initState, ancKeys] at hv
  · intro v hv
    rw [hfr] at hv
    simp at hv
    rw [hv]
    exact Reach.refl
  · intro v hv
    simp [initState] at hv
  · simp [initState, ancKeys]
  · simp [initState]

theorem loop_ok {strat : Strategy} {g : Graph} {endN start : Nat} :
    ∀ (fuel : Nat) (st st' : SState), Inv g start st →
      searchLoop strat g endN fuel st = some (st', none) →
      Inv g start st' ∧ (st'.frontier = [] ∨ endN ∈ st'.expanded) := by
  intro fuel
  induction fuel with
  | zero =>
    intro st st' _ h
    simp [searchLoop] at h
  | succ n ih =>
    intro st st' hInv h
    rw [searchLoop] at h
    cases hpop : popFrontier st.frontier with
    | none =>
      simp only [hpop] at h
      simp at h
      obtain ⟨rfl, -⟩ := h
      exact ⟨hInv, Or.inl (popFrontier_eq_none.mp hpop)⟩
    | some p =>
      obtain ⟨rest, node⟩ := p
      simp only [hpop] at h
      cases hexp : expandNode strat g { st with frontier := rest } node with
      | mk st1 err =>
        cases err with
        | some e =>
          simp only [hexp] at h
          simp at h
        | none =>
          simp only [hexp] at h
          have hInv1 := inv_step hInv hpop hexp
          by_cases hend : endN ∈ st1.expanded
          · rw [if_pos hend] at h
            simp at h
            obtain ⟨rfl, -⟩ := h
            exact ⟨hInv1, Or.inr hend⟩
          · rw [if_neg hend] at h
            exact ih st1 st' hInv1 h

theorem loop_err {strat : Strategy} {g : Graph} {endN start : Nat} :
    ∀ (fuel : Nat) (st st' : SState) (e : PyErr), Inv g start st →
      searchLoop strat g endN fuel st = some (st', some e) →
      ¬ (st'.discLog.map Prod.snd).Nodup := by
  intro fuel
  induction fuel with
  | zero =>
    intro st st' e _ h
    simp [searchLoop] at h
  | succ n ih =>
    intro st st' e hInv h
    rw [searchLoop] at h
    cases hpop : popFrontier st.frontier with
    | none =>
      simp only [hpop] at h
      simp at h
    | some p =>
      obtain ⟨rest, node⟩ := p
      simp only [hpop] at h
      cases hexp : expandNode strat g { st with frontier := rest } node with
      | mk st1 err =>
        cases err with
        | some e' =>
          simp only [hexp] at h
          simp at h
          obtain ⟨rfl, -⟩ := h
          exact (expandNode_err hexp hInv.disc_keys.symm hInv.keys_nodup).1
        | none =>
          simp only [hexp] at h
          by_cases hend : endN ∈ st1.expanded
          · rw [if_pos hend] at h
            simp at h
          · rw [if_neg hend] at h
            exact ih st1 st' e (inv_step hInv hpop hexp) h

/-! ## The strengthened invariant for self-loop-free graphs -/

theorem invW_step {strat : Strategy} {g : Graph} {start : Nat} {st : SState}
    {rest : List Nat} {node : Nat} {st' : SState} (hWF : NoSelfLoops g)
    (hI : InvW g start st)
    (hpop : popFrontier st.frontier = some (rest, node))
    (hexp : expandNode strat g { st with frontier := rest } node = (st', none)) :
    InvW g start st' := by
  have hInv := hI.base
  have hfr : st.frontier = rest ++ [node] := popFrontier_eq_some hpop
  have hspec := expandNode_ok hexp
  simp only at hspec
  obtain ⟨hE, hL, hA, hF, hD, hFnd, hFkeys⟩ := hspec
  set F := freshOnes st.expanded (g node) with hFdef
  have hFmem : ∀ nb ∈ F, nb ∈ g node ∧ nb ∉ st.expanded := by
    intro nb hnb
    exact (mem_freshOnes (g node)).mp hnb
  have hnodeF : node ∈ st.frontier := by rw [hfr]; simp
  have hfrnd : st.frontier.Nodup := hI.fr_nodup
  have hnode_rest : node ∉ rest := by
    rw [hfr] at hfrnd
    rcases List.nodup_append.mp hfrnd with ⟨-, -, hdisj⟩
    intro hmem
    exact hdisj hmem (by simp)
  have hnode_exp : node ∉ st.expanded := hI.fr_disj node hnodeF
  have hcase :
      (st.expanded = [] ∧ rest = [] ∧ node = start) ∨
      (start ∈ st.expanded ∧ node ∈ ancKeys st.anc) := by
    rcases hInv.start_exp with hemp | hst
    · obtain ⟨-, hf, -⟩ := hInv.init_case hemp
      rw [hf] at hpop
      have : popFrontier [start] = some ([], start) := rfl
      rw [this] at hpop
      simp at hpop
      exact Or.inl ⟨hemp, hpop.1, hpop.2.symm⟩
    · rcases hInv.frontier_mem node hnodeF with hk | ⟨rfl, hemp⟩
      · exact Or.inr ⟨hst, hk⟩
      · rw [hemp] at hst
        simp at hst
  have hexp_mem : ∀ v, v ∈ st'.expanded ↔ v ∈ st.expanded ∨ v = node := by
    intro v
    rw [hE]
    exact mem_setInsert
  have hfr_mem : ∀ v, v ∈ st'.frontier ↔ v ∈ rest ∨ v ∈ F := by
    intro v
    rw [hF]
    exact mem_addAll F rest
  have hrest_nd : rest.Nodup := by
    rw [hfr] at hfrnd
    exact hfrnd.of_append_left
  have hF_not_rest : ∀ v ∈ F, v ∉ rest := by
    intro v hv hvrest
    have hvfr : v ∈ st.frontier := by rw [hfr]; exact List.mem_append_left _ hvrest
    rcases hInv.frontier_mem v hvfr with hk | ⟨rfl, hemp⟩
    · exact hFkeys v hv hk
    · rcases hcase with ⟨-, hrest0, -⟩ | ⟨hst, -⟩
      · rw [hrest0] at hvrest
        simp at hvrest
      · rw [hemp] at hst
        simp at hst
  constructor
  · exact inv_step hInv hpop hexp
  · -- fr_nodup
    rw [hF]
    exact nodup_addAll F rest hrest_nd hFnd hF_not_rest
  · -- fr_disj
    intro v hv
    rcases (hfr_mem v).mp hv with hv1 | hv1
    · intro hvmem
      rcases (hexp_mem v).mp hvmem with h1 | rfl
      · exact hI.fr_disj v (by rw [hfr]; exact List.mem_append_left _ hv1) h1
      · exact hnode_rest hv1
    · intro hvmem
      rcases (hexp_mem v).mp hvmem with h1 | rfl
      · exact (hFmem v hv1).2 h1
      · exact hWF v ((hFmem v hv1).1)
  · -- log_nodup
    rw [hL]
    have hnode_log : node ∉ st.expandLog := by
      intro hmem
      exact hnode_exp ((hI.log_iff node).mp hmem)
    simp [List.nodup_append, hI.log_nodup, hnode_log]
  · -- log_iff
    intro v
    rw [hL, hexp_mem v]
    simp [hI.log_iff v]
  · -- start_unkeyed
    rw [hA, ancKeys_append, ancKeys_map_pair]
    intro hmem
    rcases List.mem_append.mp hmem with h1 | h1
    · exact hI.start_unkeyed h1
    · rcases hcase with ⟨-, -, hns⟩ | ⟨hst, -⟩
      · rw [← hns] at h1
        exact hWF node (hFmem node h1).1
      · exact (hFmem start h1).2 hst

theorem invW_init (strat : Strategy) (g : Graph) (start : Nat) :
    InvW g start (initState strat start) := by
  have hfr : (initState strat start).frontier = [start] := by
    simp [initState, addToFrontier_nil]
  constructor
  · exact inv_init strat g start
  · rw [hfr]
    simp
  · intro v hv
    simp [initState]
  · simp [initState]
  · intro v
    simp [initState]
  · simp [initState, ancKeys]

theorem loopW_log {strat : Strategy} {g : Graph} {endN start : Nat}
    (hWF : NoSelfLoops g) :
    ∀ (fuel : Nat) (st st' : SState) (err : Option PyErr), InvW g start st →
      searchLoop strat g endN fuel st = some (st', err) →
      st'.expandLog.Nodup := by
  intro fuel
  induction fuel with
  | zero =>
    intro st st' err _ h
    simp [searchLoop] at h
  | succ n ih =>
    intro st st' err hI h
    rw [searchLoop] at h
    cases hpop : popFrontier st.frontier with
    | none =>
      simp only [hpop] at h
      simp at h
      obtain ⟨rfl, -⟩ := h
      exact hI.log_nodup
    | some p =>
      obtain ⟨rest, node⟩ := p
      simp only [hpop] at h
      have hnodeF : node ∈ st.frontier := by
        rw [popFrontier_eq_some hpop]
        simp
      have hnode_exp : node ∉ st.expanded := hI.fr_disj node hnodeF
      have hnode_log : node ∉ st.expandLog := by
        intro hmem
        exact hnode_exp ((hI.log_iff node).mp hmem)
      cases hexp : expandNode strat g { st with frontier := rest } node with
      | mk st1 errX =>
        cases errX with
        | some e' =>
          simp only [hexp] at h
          simp at h
          obtain ⟨rfl, -⟩ := h
          have hspec := expandNode_err hexp hI.base.disc_keys.symm hI.base.keys_nodup
          rw [hspec.2.1]
          simp [List.nodup_append, hI.log_nodup, hnode_log]
        | none =>
          simp only [hexp] at h
          have hI1 := invW_step hWF hI hpop hexp
          by_cases hend : endN ∈ st1.expanded
          · rw [if_pos hend] at h
            simp at h
            obtain ⟨rfl, -⟩ := h
            exact hI1.log_nodup
          · rw [if_neg hend] at h
            exact ih st1 st' err hI1 h

theorem loop_total {strat : Strategy} {g : Graph} {endN start : Nat}
    {N : List Nat} (hWF : NoSelfLoops g)
    (hcl : ∀ v ∈ N, ∀ u ∈ g v, u ∈ N) :
    ∀ (fuel : Nat) (st : SState), InvW g start st →
      (∀ v ∈ st.expanded, v ∈ N) → (∀ v ∈ st.frontier, v ∈ N) →
      N.length + 1 ≤ st.expanded.length + fuel →
      (searchLoop strat g endN fuel st).isSome := by
  intro fuel
  induction fuel with
  | zero =>
    intro st hI hexpN hfrN hlen
    exfalso
    have hsub : st.expanded.length ≤ N.length :=
      (List.subperm_of_subset hI.base.exp_nodup hexpN).length_le
    omega
  | succ n ih =>
    intro st hI hexpN hfrN hlen
    rw [searchLoop]
    cases hpop : popFrontier st.frontier with
    | none => simp
    | some p =>
      obtain ⟨rest, node⟩ := p
      simp only
      have hfr : st.frontier = rest ++ [node] := popFrontier_eq_some hpop
      have hnodeF : node ∈ st.frontier := by rw [hfr]; simp
      have hnodeN : node ∈ N := hfrN node hnodeF
      have hnode_exp : node ∉ st.expanded := hI.fr_disj node hnodeF
      cases hexp : expandNode strat g { st with frontier := rest } node with
      | mk st1 errX =>
        cases errX with
        | some e' => simp
        | none =>
          simp only
          by_cases hend : endN ∈ st1.expanded
          · rw [if_pos hend]
            simp
          · rw [if_neg hend]
            have hI1 := invW_step hWF hI hpop hexp
            have hspec := expandNode_ok hexp
            simp only at hspec
            obtain ⟨hE, -, -, hF, -, -, -⟩ := hspec
            have hlen1 : st1.expanded.length = st.expanded.length + 1 := by
              rw [hE]
              unfold setInsert
              rw [if_neg hnode_exp]
              simp
            refine ih st1 hI1 ?_ ?_ ?_
            · intro v hv
              rw [hE] at hv
              rcases mem_setInsert.mp hv with h1 | rfl
              · exact hexpN v h1
              · exact hnodeN
            · intro v hv
              rw [hF] at hv
              rcases (mem_addAll _ _).mp hv with h1 | h1
              · exact hfrN v (by rw [hfr]; exact List.mem_append_left _ h1)
              · exact hcl node hnodeN v ((mem_freshOnes _).mp h1).1
            · omega

/-! ## Path reconstruction: memoized inner function versus naive recursion -/

theorem collectPaths_congr {b1 b2 : Nat → Option (List (List Nat))} {e : Nat} :
    ∀ ps : List Nat, (∀ x ∈ ps, b1 x = b2 x) →
      collectPaths b1 e ps = collectPaths b2 e ps := by
  intro ps
  induction ps with
  | nil => intro _; rfl
  | cons p ps ih =>
    intro h
    simp only [collectPaths, h p (List.mem_cons_self _ _),
      ih (fun x hx => h x (List.mem_cons_of_mem _ hx))]

theorem buildPathsMemo_eq :
    ∀ (fuel : Nat) (anc : List (Nat × List Nat)) (start e : Nat),
      buildPathsMemo fuel anc start e = buildPathsNaive anc start fuel e := by
  intro fuel
  induction fuel with
  | zero => intro anc start e; rfl
  | succ n ih =>
    intro anc start e
    rw [buildPathsMemo, buildPathsNaive, innerBuild]
    simp only [cacheLookup]
    cases hl : lookupA anc e with
    | none => simp [hl]
    | some parents =>
      simp only [hl]
      rw [collectPaths_congr parents (fun x _ => ih anc start x)]
      cases collectPaths (buildPathsNaive anc start n) e parents <;> simp

theorem collectPaths_mono {b1 b2 : Nat → Option (List (List Nat))} {e : Nat} :
    ∀ ps : List Nat, (∀ x ∈ ps, ∀ r, b1 x = some r → b2 x = some r) →
      ∀ R, collectPaths b1 e ps = some R → collectPaths b2 e ps = some R := by
  intro ps
  induction ps with
  | nil => intro _ R h; exact h
  | cons p ps ih =>
    intro h R hR
    rw [collectPaths] at hR
    cases h1 : b1 p with
    | none =>
      simp only [h1] at hR
      exact Option.noConfusion hR
    | some pp =>
      simp only [h1] at hR
      cases h2 : collectPaths b1 e ps with
      | none =>
        simp only [h2] at hR
        exact Option.noConfusion hR
      | some rest =>
        simp only [h2] at hR
        rw [collectPaths, h p (List.mem_cons_self _ _) pp h1,
          ih (fun x hx => h x (List.mem_cons_of_mem _ hx)) rest h2]
        exact hR

theorem buildPathsNaive_mono {anc : List (Nat × List Nat)} {start : Nat} :
    ∀ (f f' : Nat), f ≤ f' → ∀ (e : Nat) (r : List (List Nat)),
      buildPathsNaive anc start f e = some r →
      buildPathsNaive anc start f' e = some r := by
  intro f
  induction f with
  | zero =>
    intro f' _ e r h
    simp [buildPathsNaive] at h
  | succ n ih =>
    intro f' hle e r h
    cases f' with
    | zero => omega
    | succ m =>
      rw [buildPathsNaive] at h ⊢
      cases hl : lookupA anc e with
      | none => simp only [hl] at h ⊢; exact h
      | some parents =>
        simp only [hl] at h ⊢
        exact collectPaths_mono parents
          (fun x _ r' hr' => ih m (by omega) x r' hr') r h

theorem buildPathsNaive_isSome_mono {anc : List (Nat × List Nat)} {start : Nat}
    {f f' : Nat} (hle : f ≤ f') {e : Nat}
    (h : (buildPathsNaive anc start f e).isSome) :
    (buildPathsNaive anc start f' e).isSome := by
  obtain ⟨r, hr⟩ := Option.isSome_iff_exists.mp h
  rw [Option.isSome_iff_exists]
  exact ⟨r, buildPathsNaive_mono f f' hle e r hr⟩

/-- When a node is recorded as its own single ancestor (the self-loop
case), the reconstruction recursion never reaches a base case: it
diverges for every fuel. -/
theorem buildPathsNaive_self_parent {anc : List (Nat × List Nat)}
    {start s : Nat} (hnd : (ancKeys anc).Nodup) (hmem : (s, [s]) ∈ anc) :
    ∀ fuel, buildPathsNaive anc start fuel s = none := by
  intro fuel
  induction fuel with
  | zero => rfl
  | succ n ih =>
    simp only [buildPathsNaive, lookupA_of_mem hnd hmem, collectPaths, ih]

theorem buildPathsNaive_total {anc : List (Nat × List Nat)}
    {start : Nat} (hnd : (ancKeys anc).Nodup)
    (hsing : ∀ c ps, (c, ps) ∈ anc → ∃ p, ps = [p])
    (hbefore : ∀ c ps, (c, ps) ∈ anc → ∀ p ∈ ps, p = start ∨ p ∈ keysBefore anc c)
    (hstart : start ∉ ancKeys anc) :
    ∀ (k e : Nat), (keysBefore anc e).length ≤ k →
      (buildPathsNaive anc start (k + 2) e).isSome := by
  intro k
  induction k with
  | zero =>
    intro e hle
    cases hl : lookupA anc e with
    | none => simp [buildPathsNaive, hl]
    | some ps =>
      have hmem := lookupA_mem hl
      obtain ⟨p, rfl⟩ := hsing e ps hmem
      rcases hbefore e [p] hmem p (by simp) with rfl | hp
      · have hsl : lookupA anc p = none := lookupA_eq_none.mpr hstart
        simp [buildPathsNaive, hl, collectPaths, hsl, extendAll]
      · exfalso
        have : keysBefore anc e = [] := List.length_eq_zero.mp (by omega)
        rw [this] at hp
        simp at hp
  | succ k ih =>
    intro e hle
    cases hl : lookupA anc e with
    | none => simp [buildPathsNaive, hl]
    | some ps =>
      have hmem := lookupA_mem hl
      obtain ⟨p, rfl⟩ := hsing e ps hmem
      rcases hbefore e [p] hmem p (by simp) with rfl | hp
      · have hsl : lookupA anc p = none := lookupA_eq_none.mpr hstart
        simp [buildPathsNaive, hl, collectPaths, hsl, extendAll]
      · have hlt : (keysBefore anc p).length < (keysBefore anc e).length := by
          have hnodup : (keysBefore anc p).Nodup :=
            (keysBefore_sublist anc p).nodup hnd
          have hsubs : (p :: keysBefore anc p) ⊆ keysBefore anc e := by
            intro v hv
            rcases List.mem_cons.mp hv with rfl | hv1
            · exact hp
            · exact keysBefore_trans hv1 hp
          have hnodup2 : (p :: keysBefore anc p).Nodup :=
            List.nodup_cons.mpr ⟨not_mem_keysBefore_self anc p, hnodup⟩
          have := (List.subperm_of_subset hnodup2 hsubs).length_le
          simp at this
          omega
        have hrec : (buildPathsNaive anc start (k + 2) p).isSome :=
          ih p (by omega)
        obtain ⟨pp, hpp⟩ := Option.isSome_iff_exists.mp hrec
        rw [show k + 1 + 2 = (k + 2) + 1 from rfl, buildPathsNaive]
        simp only [hl, collectPaths, hpp]
        simp

/-- Soundness of the reconstruction on ancestor maps produced by
error-free runs: the result is a single path from `start`, its steps
follow graph edges, it repeats no node, and it ends at `e` whenever `e`
has a recorded ancestor. -/
theorem buildPathsNaive_sound {g : Graph} {anc : List (Nat × List Nat)}
    {start : Nat} (hnd : (ancKeys anc).Nodup)
    (hsing : ∀ c ps, (c, ps) ∈ anc → ∃ p, ps = [p])
    (hedge : ∀ c ps, (c, ps) ∈ anc → ∀ p ∈ ps, c ∈ g p)
    (hbefore : ∀ c ps, (c, ps) ∈ anc → ∀ p ∈ ps, p = start ∨ p ∈ keysBefore anc c)
    (hself : ∀ ps, (start, ps) ∈ anc → ps = [start]) :
    ∀ (fuel e : Nat) (paths : List (List Nat)),
      buildPathsNaive anc start fuel e = some paths →
      ∃ path : List Nat, paths = [path] ∧ path.head? = some start ∧
        List.Chain' (fun a b => b ∈ g a) path ∧ path.Nodup ∧
        (∀ v ∈ path, v = start ∨ v = e ∨ v ∈ keysBefore anc e) ∧
        (e ∈ ancKeys anc → path.getLast? = some e) ∧
        (e ∉ ancKeys anc → path = [start]) := by
  intro fuel
  induction fuel with
  | zero =>
    intro e paths h
    simp [buildPathsNaive] at h
  | succ n ih =>
    intro e paths h
    rw [buildPathsNaive] at h
    cases hl : lookupA anc e with
    | none =>
      simp only [hl] at h
      simp at h
      subst h
      refine ⟨[start], rfl, rfl, List.chain'_singleton start, by simp, ?_, ?_, ?_⟩
      · intro v hv
        simp at hv
        exact Or.inl hv
      · intro hkey
        exact absurd hkey (lookupA_eq_none.mp hl)
      · intro _
        rfl
    | some ps =>
      simp only [hl] at h
      have hmem := lookupA_mem hl
      have he_key : e ∈ ancKeys anc := mem_ancKeys_of_lookupA hl
      obtain ⟨p, rfl⟩ := hsing e ps hmem
      rw [collectPaths] at h
      cases hpp : buildPathsNaive anc start n p with
      | none =>
        simp only [hpp] at h
        exact Option.noConfusion h
      | some pp =>
        simp only [hpp, collectPaths] at h
        simp at h
        obtain ⟨path', rfl, hhead, hchain, hnodup, helts, hlast_keyed, hlast_unkeyed⟩ :=
          ih p pp hpp
        have hpaths : paths = [path' ++ [e]] := by
          rw [← h]
          simp [extendAll]
        rcases hbefore e [p] hmem p (by simp) with hps | hp2
        · -- the parent is the start node itself
          subst p
          by_cases hsk : start ∈ ancKeys anc
          · exfalso
            obtain ⟨⟨c, ps0⟩, hmem0, hfst⟩ := List.mem_map.mp hsk
            simp at hfst
            subst hfst
            have := hself ps0 hmem0
            subst this
            have hdiv := @buildPathsNaive_self_parent anc c c hnd hmem0 n
            rw [hdiv] at hpp
            simp at hpp
          · have hpath' : path' = [start] := hlast_unkeyed hsk
            subst hpath'
            have hene : e ≠ start := by
              rintro rfl
              exact hsk he_key
            refine ⟨[start, e], by simpa using hpaths, rfl, ?_, ?_, ?_, ?_, ?_⟩
            · simp [List.chain'_cons]
              exact hedge e [start] hmem start (by simp)
            · simp [hene.symm]
            · intro v hv
              simp at hv
              rcases hv with rfl | rfl
              · exact Or.inl rfl
              · exact Or.inr (Or.inl rfl)
            · intro _
              rfl
            · intro hk
              exact absurd he_key hk
        · -- the parent has a strictly earlier ancestor-map entry
          have hpkey : p ∈ ancKeys anc := mem_ancKeys_of_mem_keysBefore hp2
          have hlast : path'.getLast? = some p := hlast_keyed hpkey
          have hene : e ≠ start := by
            rintro rfl
            have := hself [p] hmem
            simp at this
            subst this
            exact not_mem_keysBefore_self anc p hp2
          have he_not_in : e ∉ path' := by
            intro hmem'
            rcases helts e hmem' with h1 | h1 | h1
            · exact hene h1
            · rw [h1] at hp2
              exact not_mem_keysBefore_self anc p hp2
            · exact not_mem_keysBefore_self anc e (keysBefore_trans h1 hp2)
          refine ⟨path' ++ [e], hpaths, ?_, ?_, ?_, ?_, ?_, ?_⟩
          · cases path' with
            | nil => simp at hhead
            | cons a t => simpa using hhead
          · rw [List.chain'_append]
            refine ⟨hchain, List.chain'_singleton e, ?_⟩
            intro x hx y hy
            simp at hy
            subst hy
            rw [hlast] at hx
            simp at hx
            subst hx
            exact hedge e [p] hmem p (by simp)
          · simp [List.nodup_append, hnodup, he_not_in]
          · intro v hv
            rcases List.mem_append.mp hv with hv1 | hv1
            · rcases helts v hv1 with h1 | h1 | h1
              · exact Or.inl h1
              · exact Or.inr (Or.inr (h1 ▸ hp2))
              · exact Or.inr (Or.inr (keysBefore_trans h1 hp2))
            · simp at hv1
              exact Or.inr (Or.inl hv1)
          · intro _
            simp
          · intro hk
            exact absurd he_key hk

/-! ## Assembly lemmas -/

theorem findPaths_ok_elim {strat : Strategy} {g : Graph} {s t fuel : Nat}
    {paths : List (List Nat)}
    (h : findPaths strat g s t fuel = some (Except.ok paths)) :
    ∃ st : SState, searchLoop strat g t fuel (initState strat s) = some (st, none) ∧
      buildPathsNaive st.anc s fuel t = some paths := by
  rw [findPaths] at h
  cases hsl : searchLoop strat g t fuel (initState strat s) with
  | none =>
    simp only [hsl] at h
    exact Option.noConfusion h
  | some pr =>
    obtain ⟨st, err⟩ := pr
    cases err with
    | some e =>
      simp only [hsl] at h
      simp at h
    | none =>
      simp only [hsl] at h
      cases hb : buildPathsMemo fuel st.anc s t with
      | none =>
        simp only [hb] at h
        exact Option.noConfusion h
      | some ps2 =>
        simp only [hb] at h
        simp at h
        subst h
        exact ⟨st, rfl, by rw [← buildPathsMemo_eq]; exact hb⟩

theorem reach_mem_expanded {g : Graph} {start : Nat} {st : SState}
    (hInv : Inv g start st) (hfr : st.frontier = []) {v : Nat}
    (hv : Reach g start v) : v ∈ st.expanded := by
  induction hv with
  | refl =>
    rcases hInv.start_exp with hemp | hst
    · exfalso
      obtain ⟨-, hf, -⟩ := hInv.init_case hemp
      rw [hfr] at hf
      simp at hf
    · exact hst
  | step hr hu ih =>
    rcases hInv.closed_exp _ ih _ hu with h1 | h1
    · exact h1
    · rw [hfr] at h1
      simp at h1

theorem processNeighbors_fresh (strat : Strategy) (node : Nat) :
    ∀ (L : List Nat) (m : SState), L.Nodup →
      (∀ nb ∈ L, nb ∉ m.expanded) → (∀ nb ∈ L, nb ∉ ancKeys m.anc) →
      processNeighbors strat node m L =
        ({ m with
            anc := m.anc ++ L.map (fun nb => (nb, [node])),
            frontier := addAll strat m.frontier L,
            discLog := m.discLog ++ L.map (fun nb => (node, nb)) }, none) := by
  intro L
  induction L with
  | nil =>
    intro m _ _ _
    rw [processNeighbors]
    simp
  | cons nb rest ih =>
    intro m hnd hfresh hkeys
    simp at hnd
    rw [processNeighbors, if_neg (hfresh nb (List.mem_cons_self _ _))]
    simp only [updateAncestor,
      if_pos (lookupA_isNone_iff.mpr (hkeys nb (List.mem_cons_self _ _)))]
    have hstep := ih { m with
        anc := m.anc ++ [(nb, [node])],
        frontier := addToFrontier strat m.frontier nb,
        discLog := m.discLog ++ [(node, nb)] } hnd.2
      (by
        intro x hx
        exact hfresh x (List.mem_cons_of_mem _ hx))
      (by
        intro x hx hxk
        simp only [ancKeys_append] at hxk
        rcases List.mem_append.mp hxk with h1 | h1
        · exact hkeys x (List.mem_cons_of_mem _ hx) h1
        · simp [ancKeys] at h1
          exact hnd.1 (h1 ▸ hx))
    rw [hstep]
    simp [List.append_assoc]

theorem loopW_ok {strat : Strategy} {g : Graph} {endN start : Nat}
    {N : List Nat} (hWF : NoSelfLoops g)
    (hcl : ∀ v ∈ N, ∀ u ∈ g v, u ∈ N) :
    ∀ (fuel : Nat) (st st' : SState), InvW g start st →
      (∀ v ∈ st.expanded, v ∈ N) → (∀ v ∈ st.frontier, v ∈ N) →
      searchLoop strat g endN fuel st = some (st', none) →
      InvW g start st' ∧ (∀ v ∈ st'.expanded, v ∈ N) ∧
        (∀ v ∈ st'.frontier, v ∈ N) := by
  intro fuel
  induction fuel with
  | zero =>
    intro st st' _ _ _ h
    simp [searchLoop] at h
  | succ n ih =>
    intro st st' hI hexpN hfrN h
    rw [searchLoop] at h
    cases hpop : popFrontier st.frontier with
    | none =>
      simp only [hpop] at h
      simp at h
      obtain ⟨rfl, -⟩ := h
      exact ⟨hI, hexpN, hfrN⟩
    | some p =>
      obtain ⟨rest, node⟩ := p
      simp only [hpop] at h
      have hfr : st.frontier = rest ++ [node] := popFrontier_eq_some hpop
      have hnodeF : node ∈ st.frontier := by rw [hfr]; simp
      have hnodeN : node ∈ N := hfrN node hnodeF
      cases hexp : expandNode strat g { st with frontier := rest } node with
      | mk st1 errX =>
        cases errX with
        | some e' =>
          simp only [hexp] at h
          simp at h
        | none =>
          simp only [hexp] at h
          have hI1 := invW_step hWF hI hpop hexp
          have hspec := expandNode_ok hexp
          simp only at hspec
          obtain ⟨hE, -, -, hF, -, -, -⟩ := hspec
          have hexpN1 : ∀ v ∈ st1.expanded, v ∈ N := by
            intro v hv
            rw [hE] at hv
            rcases mem_setInsert.mp hv with h1 | rfl
            · exact hexpN v h1
            · exact hnodeN
          have hfrN1 : ∀ v ∈ st1.frontier, v ∈ N := by
            intro v hv
            rw [hF] at hv
            rcases (mem_addAll _ _).mp hv with h1 | h1
            · exact hfrN v (by rw [hfr]; exact List.mem_append_left _ h1)
            · exact hcl node hnodeN v ((mem_freshOnes _).mp h1).1
          by_cases hend : endN ∈ st1.expanded
          · rw [if_pos hend] at h
            simp at h
            obtain ⟨rfl, -⟩ := h
            exact ⟨hI1, hexpN1, hfrN1⟩
          · rw [if_neg hend] at h
            exact ih st1 st' hI1 hexpN1 hfrN1 h

theorem gIso_unreachable : ¬ Reach gIso 0 5 := by
  intro h
  cases h with
  | step hr hu => exact absurd hu (by simp [gIso])

theorem gEdge_noSelfLoops : NoSelfLoops gEdge := by
  intro v
  by_cases h0 : v = 0
  · subst h0
    simp [gEdge]
  · by_cases h1 : v = 1
    · subst h1
      simp [gEdge]
    · simp [gEdge, h0, h1]

theorem findPaths_gLoop_none :
    ∀ fuel : Nat, findPaths Strategy.bfs gLoop 0 0 fuel = none := by
  intro fuel
  cases fuel with
  | zero => rfl
  | succ n =>
    have hsl : searchLoop Strategy.bfs gLoop 0 (n + 1) (initState Strategy.bfs 0) =
        some (stLoop, none) := rfl
    have hb : buildPathsMemo (n + 1) stLoop.anc 0 0 = none := by
      rw [buildPathsMemo_eq]
      exact buildPathsNaive_self_parent (by decide) (by simp [stLoop]) (n + 1)
    rw [findPaths]
    simp only [hsl, hb]

/-! ## The claims -/

/-- C1: the specification's concrete scenario expects
`find_paths(0, 2)` under BFS on the graph with edges
(0,1), (1,2), (0,3), (3,2) to return exactly `[0,1,2]` and `[0,3,2]`.
The code instead raises `AttributeError`: node 2 is discovered a second
time (from node 3, after having been discovered from node 1), and the
walrus-operator bug in `__update_ancestor` calls `.add` on `False`.
The claim is right about the intent, the code is wrong. -/
theorem C1_bfs_diamond_raises :
    findPaths Strategy.bfs gDiamond 0 2 10 =
      some (Except.error PyErr.attributeError) := rfl

/-- C2: the specification claims `find_paths` never raises for any graph
and any node pair present in it.  On the diamond graph with edges
(0,1), (1,2), (0,3), (3,2) the call `find_paths(0, 2)` raises
`AttributeError` under both strategies, so the code contradicts the
stated failure semantics. -/
theorem C2_find_paths_raises_on_diamond :
    findPaths Strategy.bfs gDiamond 0 2 10 =
        some (Except.error PyErr.attributeError) ∧
    findPaths Strategy.dfs gDiamond 0 2 10 =
        some (Except.error PyErr.attributeError) := ⟨rfl, rfl⟩

/-- C3: during one `find_paths` call, the expansion loop raises
`AttributeError` exactly when some node is discovered (added to the
frontier with a recorded parent) a second time — the ancestor-update
assignment binds a boolean and `.add` is invoked on `False`; conversely,
on runs in which every node is discovered at most once, no error occurs.
`r.1.discLog` lists the discovery events `(parent, child)` of the run. -/
theorem C3_error_iff_second_discovery (strat : Strategy) (g : Graph)
    (s e fuel : Nat) (r : SState × Option PyErr)
    (h : searchLoop strat g e fuel (initState strat s) = some r) :
    findPaths strat g s e fuel = some (Except.error PyErr.attributeError) ↔
      ¬ ((r.1.discLog.map Prod.snd).Nodup) := by
  obtain ⟨st, err⟩ := r
  cases err with
  | none =>
    have hfin := loop_ok fuel _ st (inv_init strat g s) h
    rw [findPaths]
    simp only [h]
    constructor
    · intro hc
      exfalso
      cases hb : buildPathsMemo fuel st.anc s e with
      | none =>
        simp only [hb] at hc
        exact Option.noConfusion hc
      | some paths =>
        simp only [hb] at hc
        simp at hc
    · intro hnodup
      exfalso
      apply hnodup
      rw [hfin.1.disc_keys]
      exact hfin.1.keys_nodup
  | some e' =>
    cases e'
    rw [findPaths]
    simp only [h]
    constructor
    · intro _
      exact loop_err fuel _ st PyErr.attributeError (inv_init strat g s) h
    · intro _
      trivial

/-- Witness for C3 at a concrete input: the error-free BFS run on the
single-edge graph 0 – 1 ends in state `stEdge` with no error and a
duplicate-free discovery log. -/
theorem C3_witness :
    (findPaths Strategy.bfs gEdge 0 1 5 =
        some (Except.error PyErr.attributeError)) ↔
      ¬ ((stEdge.discLog.map Prod.snd).Nodup) :=
  C3_error_iff_second_discovery Strategy.bfs gEdge 0 1 5 (stEdge, none)
    (by decide)

/-- C4 counterexample: on the edgeless graph containing nodes 0 and 5,
node 5 is unreachable from 0, yet `find_paths(0, 5)` returns `[[0]]` —
the base case returns the singleton of the START node, not `[[5]]` as
the claim states. -/
theorem C4_counterexample :
    ¬ Reach gIso 0 5 ∧
    findPaths Strategy.bfs gIso 0 5 3 = some (Except.ok [[0]]) ∧
    ([[0]] : List (List Nat)) ≠ [[5]] :=
  ⟨gIso_unreachable, rfl, by decide⟩

/-- C4 (amended): for every graph and every `start`, `end` with `end`
unreachable from `start`, whenever `find_paths` completes normally (the
expansion runs to exhaustion without the ancestor-update
`AttributeError`), it returns the singleton list `[[start]]` — the
base-case path containing the start argument, not the end node. -/
theorem C4_unreachable_returns_start_singleton (strat : Strategy)
    (g : Graph) (s t fuel : Nat) (paths : List (List Nat))
    (hur : ¬ Reach g s t)
    (h : findPaths strat g s t fuel = some (Except.ok paths)) :
    paths = [[s]] := by
  obtain ⟨st, hsl, hb⟩ := findPaths_ok_elim h
  have hInv := (loop_ok fuel _ st (inv_init strat g s) hsl).1
  have ht : t ∉ ancKeys st.anc := fun hmem => hur (hInv.reach_keys t hmem)
  cases fuel with
  | zero => simp [buildPathsNaive] at hb
  | succ n =>
    rw [buildPathsNaive] at hb
    simp only [lookupA_eq_none.mpr ht] at hb
    simp at hb
    exact hb.symm

/-- Witness for C4's amended theorem at a concrete input. -/
theorem C4_witness : ([[0]] : List (List Nat)) = [[0]] :=
  C4_unreachable_returns_start_singleton Strategy.bfs gIso 0 5 3 [[0]]
    gIso_unreachable rfl

/-- C5: for every graph, every reachable pair `(start, end)` and either
strategy, every path in a list returned by `find_paths` is a valid walk:
it starts at `start`, ends at `end`, each consecutive pair of elements
are neighbours, and no node repeats inside one path. -/
theorem C5_returned_paths_are_valid_walks (strat : Strategy) (g : Graph)
    (s t fuel : Nat) (paths : List (List Nat)) (path : List Nat)
    (hre : Reach g s t)
    (h : findPaths strat g s t fuel = some (Except.ok paths))
    (hmem : path ∈ paths) : ValidWalk g s t path := by
  obtain ⟨st, hsl, hb⟩ := findPaths_ok_elim h
  obtain ⟨hInv, hfin⟩ := loop_ok fuel _ st (inv_init strat g s) hsl
  obtain ⟨path0, rfl, hhead, hchain, hnodup, -, hlastk, hlastu⟩ :=
    buildPathsNaive_sound hInv.keys_nodup hInv.anc_singleton hInv.anc_edge
      hInv.anc_before hInv.start_key_self fuel t paths hb
  simp at hmem
  subst path
  by_cases hk : t ∈ ancKeys st.anc
  · exact ⟨hhead, hlastk hk, hchain, hnodup⟩
  · have hexp : t ∈ st.expanded := by
      rcases hfin with hfr | hexp
      · exact reach_mem_expanded hInv hfr hre
      · exact hexp
    have hts : t = s := by
      rcases hInv.expanded_mem t hexp with h1 | h1
      · exact h1
      · exact absurd h1 hk
    have hpath : path0 = [s] := hlastu hk
    subst hpath
    exact ⟨hhead, by simp [hts], hchain, hnodup⟩

/-- Witness for C5 at a concrete input: the BFS run on the single-edge
graph 0 – 1 returns `[[0, 1]]`, and `[0, 1]` is a valid walk. -/
theorem C5_witness : ValidWalk gEdge 0 1 [0, 1] :=
  C5_returned_paths_are_valid_walks Strategy.bfs gEdge 0 1 5 [[0, 1]] [0, 1]
    (Reach.step Reach.refl (by simp [gEdge])) rfl (by simp)

/-- C6 counterexample: on the one-node graph with a self-loop at 0,
`find_paths(0, 0)` does not terminate for any fuel: the expansion loop
finishes (node 0 is expanded and the early exit fires), but node 0 is
recorded as its own ancestor and the recursive reconstruction descends
for ever, so the claim "find_paths terminates on every finite graph"
fails. -/
theorem C6_counterexample : ¬ findPathsTerminates Strategy.bfs gLoop 0 0 := by
  rintro ⟨fuel, h⟩
  rw [findPaths_gLoop_none fuel] at h
  simp at h

/-- C6 (amended): on every finite graph WITHOUT self-loops (node list
`N` closed under neighbours and containing `start`), `find_paths`
terminates for either strategy: fuel `2·|N.dedup| + 3` suffices to
finish both the expansion loop and the path reconstruction, returning a
value or raising. -/
theorem C6_terminates_without_self_loops (strat : Strategy) (g : Graph)
    (N : List Nat) (s e : Nat) (hWF : NoSelfLoops g)
    (hcl : ∀ v ∈ N, ∀ u ∈ g v, u ∈ N) (hs : s ∈ N) :
    (findPaths strat g s e (2 * N.dedup.length + 3)).isSome := by
  have hcl' : ∀ v ∈ N.dedup, ∀ u ∈ g v, u ∈ N.dedup := by
    intro v hv u hu
    rw [List.mem_dedup] at hv ⊢
    exact hcl v hv u hu
  have hfr : (initState strat s).frontier = [s] := by
    simp [initState, addToFrontier_nil]
  have hexpN : ∀ v ∈ (initState strat s).expanded, v ∈ N.dedup := by
    intro v hv
    simp [initState] at hv
  have hfrN : ∀ v ∈ (initState strat s).frontier, v ∈ N.dedup := by
    intro v hv
    rw [hfr] at hv
    simp at hv
    rw [hv, List.mem_dedup]
    exact hs
  have hloop : (searchLoop strat g e (2 * N.dedup.length + 3)
      (initState strat s)).isSome := by
    refine loop_total hWF hcl' _ (initState strat s) (invW_init strat g s)
      hexpN hfrN ?_
    simp [initState]
    omega
  obtain ⟨⟨st, err⟩, hsl⟩ := Option.isSome_iff_exists.mp hloop
  cases err with
  | some e' =>
    rw [findPaths]
    simp only [hsl]
    simp
  | none =>
    obtain ⟨hInvW, hexpN', hfrN'⟩ :=
      loopW_ok hWF hcl' _ (initState strat s) st (invW_init strat g s)
        hexpN hfrN hsl
    have hInv := hInvW.base
    have hkeysN : ∀ c ∈ ancKeys st.anc, c ∈ N.dedup := by
      intro c hc
      rcases hInv.keys_mem c hc with h1 | h1
      · exact hexpN' c h1
      · exact hfrN' c h1
    have hanclen : (ancKeys st.anc).length ≤ N.dedup.length :=
      (List.subperm_of_subset hInv.keys_nodup hkeysN).length_le
    have hkb : (keysBefore st.anc e).length ≤ N.dedup.length := by
      have h1 : (keysBefore st.anc e).length ≤ (ancKeys st.anc).length :=
        (keysBefore_sublist st.anc e).length_le
      omega
    have hbuild : (buildPathsNaive st.anc s (2 * N.dedup.length + 3) e).isSome := by
      refine buildPathsNaive_isSome_mono ?_
        (buildPathsNaive_total hInv.keys_nodup hInv.anc_singleton
          hInv.anc_before hInvW.start_unkeyed (N.dedup.length) e hkb)
      omega
    obtain ⟨paths, hp⟩ := Option.isSome_iff_exists.mp hbuild
    rw [findPaths]
    simp only [hsl]
    rw [buildPathsMemo_eq]
    simp only [hp]
    simp

/-- Witness for C6's amended theorem at a concrete input. -/
theorem C6_witness :
    (findPaths Strategy.bfs gEdge 0 1 (2 * [0, 1].dedup.length + 3)).isSome :=
  C6_terminates_without_self_loops Strategy.bfs gEdge [0, 1] 0 1
    gEdge_noSelfLoops (by decide) (by decide)

/-- C7 counterexample: on the one-node graph with a self-loop at 0,
`find_paths(0, 0)` never returns `[[0]]` (the reconstruction recursion
diverges), refuting "for every graph and every node start,
find_paths(start, start) returns exactly [[start]]". -/
theorem C7_counterexample : ¬ returnsSingleStart Strategy.bfs gLoop 0 := by
  rintro ⟨fuel, h⟩
  rw [findPaths_gLoop_none fuel] at h
  exact Option.noConfusion h

/-- C7 (amended): for every graph, every node `start` that is not its
own neighbour (no self-loop at `start`, and `networkx` neighbour lists
are duplicate-free), and both strategies, `find_paths(start, start)`
returns exactly `[[start]]`. -/
theorem C7_start_eq_end_returns_start_singleton (strat : Strategy)
    (g : Graph) (s : Nat) (hnd : (g s).Nodup) (hsl : s ∉ g s) (fuel : Nat) :
    findPaths strat g s s (fuel + 1) = some (Except.ok [[s]]) := by
  have hfresh := processNeighbors_fresh strat s (g s)
      { expanded := [], anc := [], frontier := [], expandLog := [s], discLog := [] }
      hnd (by intro nb _; simp) (by intro nb _; simp [ancKeys])
  simp only [List.nil_append] at hfresh
  have hlook : lookupA ((g s).map (fun nb => (nb, [s]))) s = none :=
    lookupA_eq_none.mpr (by rw [ancKeys_map_pair]; exact hsl)
  have hexp : expandNode strat g
      { expanded := [], anc := [], frontier := [], expandLog := [],
        discLog := [] } s =
      ({ expanded := [s], anc := (g s).map (fun nb => (nb, [s])),
         frontier := addAll strat [] (g s), expandLog := [s],
         discLog := (g s).map (fun nb => (s, nb)) }, none) := by
    rw [expandNode]
    simp only [List.nil_append]
    rw [hfresh]
    simp [setInsert]
  have hloop : searchLoop strat g s (fuel + 1) (initState strat s) =
      some ({ expanded := [s],
              anc := (g s).map (fun nb => (nb, [s])),
              frontier := addAll strat [] (g s),
              expandLog := [s],
              discLog := (g s).map (fun nb => (s, nb)) }, none) := by
    rw [searchLoop]
    simp only [initState, addToFrontier_nil]
    simp only [show popFrontier [s] = some ([], s) from rfl]
    simp only [hexp]
    simp
  have hbuild : buildPathsMemo (fuel + 1)
      ((g s).map (fun nb => (nb, [s]))) s s = some [[s]] := by
    rw [buildPathsMemo_eq, buildPathsNaive]
    simp only [hlook]
  rw [findPaths]
  simp only [hloop, hbuild]

/-- Witness for C7's amended theorem at a concrete input. -/
theorem C7_witness :
    findPaths Strategy.bfs gEdge 0 0 (0 + 1) = some (Except.ok [[0]]) :=
  C7_start_eq_end_returns_start_singleton Strategy.bfs gEdge 0
    (by decide) (by decide) 0

/-- C8: the BFS frontier is FIFO.  For every interleaving of
`_add_to_frontier` calls with consumption steps of the
`_expandable_nodes` generator, the deque implementation (appendleft /
pop-from-the-right, stopping when the deque is empty) emits exactly the
same nodes, in the same order, as a specification FIFO queue that
appends at the back and serves from the front — including nodes added
after iteration began. -/
theorem C8_bfs_frontier_fifo_refinement :
    ∀ (ops : List QOp) (pend : List Nat),
      bfsQueueRun pend.reverse ops =
        ((fifoRun pend ops).1.reverse, (fifoRun pend ops).2) := by
  intro ops
  induction ops with
  | nil =>
    intro pend
    rfl
  | cons op ops ih =>
    intro pend
    cases op with
    | add n =>
      rw [bfsQueueRun, fifoRun]
      have harr : addToFrontier Strategy.bfs pend.reverse n = (pend ++ [n]).reverse := by
        simp [addToFrontier]
      rw [harr, ih (pend ++ [n])]
    | next =>
      cases pend with
      | nil =>
        rw [bfsQueueRun, fifoRun]
        simp [popFrontier]
      | cons n rest =>
        rw [bfsQueueRun, fifoRun]
        have hpop : popFrontier ((n :: rest).reverse) = some (rest.reverse, n) := by
          rw [List.reverse_cons]
          exact popFrontier_append rest.reverse n
        simp only [hpop]
        rw [ih rest]

/-- C9 counterexample: on the graph with a self-loop at 0 plus the edge
0 – 1, the BFS run of `find_paths(0, 1)` invokes `__expand_node` on
node 0 twice (the self-loop re-enqueues 0 during its own expansion), as
its expansion log shows, refuting "each node is expanded at most once". -/
theorem C9_counterexample :
    (searchLoop Strategy.bfs gLoopEdge 1 5 (initState Strategy.bfs 0)).map
        (fun r => r.1.expandLog) = some [0, 0] := rfl

/-- C9 (amended): on every graph without self-loops, during any single
`find_paths` call (of either strategy, whether or not it raises), each
node is expanded at most once: the log of `__expand_node` invocations
has no duplicates. -/
theorem C9_nodes_expanded_at_most_once (strat : Strategy) (g : Graph)
    (s e fuel : Nat) (r : SState × Option PyErr) (hWF : NoSelfLoops g)
    (h : searchLoop strat g e fuel (initState strat s) = some r) :
    r.1.expandLog.Nodup :=
  loopW_log hWF fuel _ r.1 r.2 (invW_init strat g s) h

/-- Witness for C9's amended theorem at a concrete input. -/
theorem C9_witness : stEdge.expandLog.Nodup :=
  C9_nodes_expanded_at_most_once Strategy.bfs gEdge 0 1 5 (stEdge, none)
    gEdge_noSelfLoops (by decide)

/-- C10: the `lru_cache`-memoized inner `_build_paths` returns exactly
what the naive unmemoized recursion returns (base case `[[start]]` for
a node with no recorded ancestors, otherwise the union over ancestors
of the parent's paths extended by the node), for every ancestor map and
every fuel — in particular because each recursive step goes through the
outer `__build_paths`, which creates a fresh inner function with a fresh
empty cache, so no cached entry is ever reused. -/
theorem C10_memoized_build_equals_naive :
    ∀ (fuel : Nat) (anc : List (Nat × List Nat)) (start e : Nat),
      buildPathsMemo fuel anc start e = buildPathsNaive anc start fuel e :=
  buildPathsMemo_eq

end GraphSearch
